import Mathlib

/-!
# Verification of the `replacer` recursive search-and-replace tool

Shallow embedding of the core of the `replacer` repository: the dual-strategy
file-rewrite engine (`replaceInFile` for small files, `replaceInLargeFile` for
large files streamed line-by-line) and the directory walker feeding the two
work queues.  File contents are modelled as `List Char` (Go operates on the
raw bytes of the file; all inputs of interest are ASCII, where bytes and
characters coincide).  File-system effects are modelled by explicit outcome
records (final file content, whether a temporary file remains).
-/

namespace Replacer

/-- Size threshold routing files to the large queue, from `const maxFileSize =
2 * 1024 * 1024 * 1024` in the source. -/
def maxFileSize : Int := 2 * 1024 * 1024 * 1024

/-- Default maximum token size of Go's `bufio.Scanner`
(`bufio.MaxScanTokenSize = 64 * 1024`), the scanner used by
`replaceInLargeFile`. -/
def maxScanTokenSize : Nat := 64 * 1024

/-! ## `strings.ReplaceAll`

`replaceInFile` and (per line) `replaceInLargeFile` call
`strings.ReplaceAll(s, old, new)`.  For non-empty `old` this replaces every
non-overlapping occurrence of `old`, scanning left to right.  For empty `old`
Go matches at the beginning of the string and after each character, inserting
`new` at every boundary (`k+1` insertions for `k` characters). -/

/-- Fuelled left-to-right non-overlapping replacement scan of
`strings.Replace` for a non-empty pattern: at each position, if `old` is a
prefix, emit `new` and skip past the matched occurrence, otherwise keep the
character and move on.  Each step consumes at least one character, so the
fuel never runs out as long as it starts at the length of the string (the
fuel only makes the recursion structural). -/
def replaceScanF (old new : List Char) : Nat → List Char → List Char
  | _, [] => []
  | 0, s => s
  | fuel + 1, c :: rest =>
      if old ≠ [] ∧ old.isPrefixOf (c :: rest) then
        new ++ replaceScanF old new fuel ((c :: rest).drop old.length)
      else
        c :: replaceScanF old new fuel rest

/-- Left-to-right non-overlapping replacement scan (see `replaceScanF`). -/
def replaceScan (old new : List Char) (s : List Char) : List Char :=
  replaceScanF old new s.length s

/-- Embedding of Go's `strings.ReplaceAll(s, old, new)`: for empty `old`,
`new` is inserted before every character and after the last one (the
documented `k+1` replacements for a `k`-character string); otherwise the
left-to-right non-overlapping scan. -/
def goReplaceAll (s old new : List Char) : List Char :=
  if old = [] then new ++ s.flatMap (fun c => c :: new)
  else replaceScan old new s

/-- Content transformation of `replaceInFile` (src/main.go lines 139-153 and
the variant at part_000 lines 173-189): the whole file content is read, passed
through `strings.ReplaceAll`, and written back, so the resulting file content
is exactly `goReplaceAll` of the old content. -/
def replaceInFile (content search replace : List Char) : List Char :=
  goReplaceAll content search replace

/-- Decides whether `pat` occurs as a contiguous substring of `s` (Go's
`strings.Contains`). -/
def hasOccur (pat : List Char) : List Char → Bool
  | [] => pat.isEmpty
  | c :: rest => pat.isPrefixOf (c :: rest) || hasOccur pat rest

/-! ## Spec-side replacement

The specification describes the transformation as "a global literal substring
replacement (every non-overlapping occurrence of `search`, left-to-right,
replaced by `replace`; if `search` is empty, implementation must define a
deterministic no-op rather than infinite insertion)".  The following
definitions formalise that wording independently of the scan above: find the
first occurrence, splice in the replacement, continue after it; empty `search`
is a no-op. -/

/-- Index of the first occurrence of `pat` in `s`, if any. -/
def firstMatchIdx (pat : List Char) : List Char → Option Nat
  | [] => if pat = [] then some 0 else none
  | c :: rest =>
      if pat.isPrefixOf (c :: rest) then some 0
      else (firstMatchIdx pat rest).map (· + 1)

/-- Modelled from the spec: replace every non-overlapping occurrence of a
non-empty `pat`, left to right, by repeatedly splicing `new` in at the first
occurrence and continuing after it. -/
def specReplace (s pat new : List Char) (hpat : pat ≠ []) : List Char :=
  match h : firstMatchIdx pat s with
  | none => s
  | some i => s.take i ++ new ++ specReplace (s.drop (i + pat.length)) pat new hpat
termination_by s.length
decreasing_by
  have hs : s ≠ [] := by
    intro he
    rw [he] at h
    simp only [firstMatchIdx, if_neg hpat] at h
    exact Option.noConfusion h
  have h1 : 0 < pat.length := List.length_pos.mpr hpat
  have h2 : 0 < s.length := List.length_pos.mpr hs
  simp only [List.length_drop]
  omega

/-- Modelled from the spec: "a global literal substring replacement (every
non-overlapping occurrence of `search`, left-to-right, replaced by `replace`;
if `search` is empty, implementation must define a deterministic no-op rather
than infinite insertion)". -/
def specReplaceAll (s pat new : List Char) : List Char :=
  if h : pat = [] then s else specReplace s pat new h

/-! ## The large-file rewriter

`replaceInLargeFile` (part_000 lines 191-231, identical in src/main.go lines
155-195) opens the source read-only, creates a temp file, and scans the source
with a default `bufio.Scanner`:

* `bufio.ScanLines` yields the bytes up to (not including) each `\x0a`
  delimiter, dropping a trailing `\x0d` from the token, and yields a final
  unterminated token only when it is non-empty;
* a token whose raw bytes (before the carriage-return drop) cannot fit in the
  scanner's `maxScanTokenSize` buffer makes `Scan` return false with
  `bufio.ErrTooLong`;
* inside the loop the context's cancellation channel is polled before each
  line is processed; `ctx.Err()` is returned if it has fired;
* each line is transformed by `strings.ReplaceAll` and written with a single
  `\x0a` appended;
* on a scan error or cancellation the function returns before the rename, and
  the deferred `os.Remove` deletes the temp file, leaving the original file's
  bytes untouched;
* otherwise the temp file is renamed over the original path. -/

/-- Raw line tokens of `bufio.Scanner`/`bufio.ScanLines` over the content:
maximal `\x0a`-free segments, the delimiters consumed, the final segment kept
only when non-empty.  Tokens are returned before the carriage-return drop
(`dropCR` is applied separately, as in `ScanLines`). -/
def splitLines : List Char → List (List Char)
  | [] => []
  | c :: cs =>
      if c = '\x0a' then [] :: splitLines cs
      else
        match splitLines cs with
        | [] => [[c]]
        | h :: t => (c :: h) :: t

/-- `dropCR` of `bufio.ScanLines`: strips one trailing carriage return from a
token. -/
def dropCR (l : List Char) : List Char :=
  if l.getLast? = some '\x0d' then l.dropLast else l

/-- Join a list of lines, terminating every line with one `\x0a` — the write
format of `replaceInLargeFile` (`writer.WriteString(newLine + "\n")`). -/
def joinNL (l : List (List Char)) : List Char :=
  l.foldr (fun seg acc => seg ++ '\x0a' :: acc) []

/-- Whether the context's cancellation channel is observed as fired at the
check preceding loop iteration `i`: `cancelAt = some k` means the one-shot
signal fires between iteration `k - 1` and iteration `k` (so `some 0` is a
deadline already expired at the time of the call), `none` means it never
fires. -/
def ctxDone (cancelAt : Option Nat) (i : Nat) : Bool :=
  match cancelAt with
  | some k => decide (k ≤ i)
  | none => false

/-- How a `replaceInLargeFile` call returned. -/
inductive LargeResult where
  /-- returned `nil` after renaming the temp file over the original -/
  | ok
  /-- returned `ctx.Err()` from the in-loop cancellation check -/
  | cancelled
  /-- returned `scanner.Err()` (`bufio.ErrTooLong`) -/
  | scanErr
deriving DecidableEq, Repr

/-- Observable outcome of a `replaceInLargeFile` call: how it returned, the
bytes at the original path afterwards, and whether the temporary file it
created still exists. -/
structure LargeOutcome where
  result : LargeResult
  fileContent : List Char
  tempRemains : Bool
deriving DecidableEq, Repr

/-- The `for scanner.Scan() { ... }` loop of `replaceInLargeFile` over the
remaining line tokens.  `i` is the iteration index (for the cancellation
model), `acc` the bytes written to the temp file so far.  Per iteration:
`Scan` fails with `ErrTooLong` if the raw token cannot fit in the scanner
buffer; then the cancellation channel is polled; then the transformed line
plus `\x0a` is written. -/
def largeLoop (cancelAt : Option Nat) (search replace : List Char) :
    Nat → List Char → List (List Char) → LargeResult × List Char
  | _, acc, [] => (LargeResult.ok, acc)
  | i, acc, seg :: rest =>
      if maxScanTokenSize ≤ seg.length then (LargeResult.scanErr, acc)
      else if ctxDone cancelAt i then (LargeResult.cancelled, acc)
      else
        largeLoop cancelAt search replace (i + 1)
          (acc ++ goReplaceAll (dropCR seg) search replace ++ ['\x0a']) rest

/-- Embedding of `replaceInLargeFile` (part_000 lines 191-231 / src/main.go
lines 155-195): on loop completion the temp content replaces the original via
`os.Rename`; on cancellation or scan error the original is untouched.  The
deferred `os.Remove(tempFile.Name())` runs in every case, so no temp file
remains (after a successful rename the temp name no longer exists and the
remove is a no-op). -/
def replaceInLargeFile (cancelAt : Option Nat) (content search replace : List Char) :
    LargeOutcome :=
  let r := largeLoop cancelAt search replace 0 [] (splitLines content)
  if r.1 = LargeResult.ok then ⟨LargeResult.ok, r.2, false⟩
  else ⟨r.1, content, false⟩

/-! ## The walker

Paths are modelled as lists of path segments; a file-system tree is a rose
tree of named entries, each regular file carrying its `info.Size()` (an
`int64` in Go). -/

/-- A path, as the list of its segments. -/
abbrev FsPath := List String

/-- A directory tree: regular files with their sizes, directories with their
entries (sibling order is the directory listing order used by
`filepath.Walk`). -/
inductive FsTree where
  | file (name : String) (size : Int)
  | dir (name : String) (children : List FsTree)

/-- Name of the root entry of a tree. -/
def FsTree.name : FsTree → String
  | .file n _ => n
  | .dir n _ => n

/-- A message sent on one of the two work queues. -/
inductive QueueMsg where
  | toLarge (p : FsPath)
  | toSmall (p : FsPath)
deriving DecidableEq, Repr

/-- What src/main.go's `walk` callback sends for a regular file (lines
124-128): files over the threshold go to the large queue, and every file is
then sent to the small queue as well. -/
def visitFileMain (p : FsPath) (size : Int) : List QueueMsg :=
  (if maxFileSize < size then [QueueMsg.toLarge p] else []) ++ [QueueMsg.toSmall p]

/-- What part_000's `walkDir` callback sends for a regular file (lines
162-167): files over the threshold go to the large queue and the callback
returns; all others go to the small queue. -/
def visitFileWalkDir (p : FsPath) (size : Int) : List QueueMsg :=
  if maxFileSize < size then [QueueMsg.toLarge p] else [QueueMsg.toSmall p]

/-- An observable event of a walker run: a queue send, or the close of one of
the two queues. -/
inductive Event where
  | send (m : QueueMsg)
  | closeLarge
  | closeSmall
deriving DecidableEq, Repr

/-- Number of close events in a trace. -/
def closeCount (evs : List Event) : Nat :=
  (evs.filter fun e => e = Event.closeLarge || e = Event.closeSmall).length

mutual

/-- Fuelled model of `filepath.Walk` driven by src/main.go's `walk` callback
(lines 109-131), over a work list of (path, subtree) entries still to visit
(depth first, siblings in listing order).  The callback classifies and sends
regular files, and for every directory entry — including the root itself,
which the callback does not skip — re-enters `walk` on that directory before
`filepath.Walk` itself descends into it.  Each processed entry and each
re-entry consumes one unit of fuel; the result records the events emitted so
far and whether the traversal ran to completion (`false` exactly when the
fuel ran out, which on an actual run means the traversal never returns). -/
def filepathWalkMain : Nat → List (FsPath × FsTree) → List Event × Bool
  | _, [] => ([], true)
  | 0, _ :: _ => ([], false)
  | fuel + 1, (p, FsTree.file _ sz) :: rest =>
      let r := filepathWalkMain fuel rest
      ((visitFileMain p sz).map Event.send ++ r.1, r.2)
  | fuel + 1, (p, FsTree.dir nm ch) :: rest =>
      let inner := walkMain fuel p (FsTree.dir nm ch)
      if inner.2 then
        let r := filepathWalkMain fuel
          (ch.map (fun c => (p ++ [c.name], c)) ++ rest)
        (inner.1 ++ r.1, r.2)
      else (inner.1, false)
termination_by fuel _ => (fuel, 0)

/-- Fuelled model of src/main.go's `walk` (lines 103-137): run
`filepath.Walk` from the root and then close both queues. -/
def walkMain (fuel : Nat) (p : FsPath) (t : FsTree) : List Event × Bool :=
  let r := filepathWalkMain fuel [(p, t)]
  if r.2 then (r.1 ++ [Event.closeLarge, Event.closeSmall], true)
  else (r.1, false)
termination_by (fuel, 1)

end

/-! ## Supporting lemmas -/

lemma replaceScanF_eq_of_le (old new : List Char) :
    ∀ fuel fuel' s, s.length ≤ fuel → s.length ≤ fuel' →
      replaceScanF old new fuel s = replaceScanF old new fuel' s := by
  intro fuel
  induction fuel with
  | zero =>
      intro fuel' s hs _
      have : s = [] := List.length_eq_zero.mp (Nat.le_zero.mp hs)
      subst this
      cases fuel' <;> rfl
  | succ f ih =>
      intro fuel' s hs hs'
      match s with
      | [] => cases fuel' <;> rfl
      | c :: rest =>
        match fuel' with
        | 0 => exact absurd hs' (by simp)
        | f' + 1 =>
          simp only [replaceScanF]
          by_cases h : old ≠ [] ∧ old.isPrefixOf (c :: rest)
          · have h1 : 0 < old.length := List.length_pos.mpr h.1
            have hl : ((c :: rest).drop old.length).length ≤ f := by
              simp only [List.length_drop, List.length_cons]
              simp only [List.length_cons] at hs
              omega
            have hl' : ((c :: rest).drop old.length).length ≤ f' := by
              simp only [List.length_drop, List.length_cons]
              simp only [List.length_cons] at hs'
              omega
            simp only [if_pos h, ih f' _ hl hl']
          · have hr : rest.length ≤ f := by
              simp only [List.length_cons] at hs; omega
            have hr' : rest.length ≤ f' := by
              simp only [List.length_cons] at hs'; omega
            simp only [if_neg h, ih f' _ hr hr']

@[simp] lemma replaceScan_nil (old new : List Char) : replaceScan old new [] = [] := rfl

lemma replaceScan_cons_pos (old new : List Char) (c : Char) (rest : List Char)
    (h : old ≠ [] ∧ old.isPrefixOf (c :: rest)) :
    replaceScan old new (c :: rest) =
      new ++ replaceScan old new ((c :: rest).drop old.length) := by
  have h1 : 0 < old.length := List.length_pos.mpr h.1
  show replaceScanF old new (rest.length + 1) (c :: rest) = _
  simp only [replaceScanF, if_pos h]
  congr 1
  exact replaceScanF_eq_of_le old new rest.length _ _
    (by simp only [List.length_drop, List.length_cons]; omega) (le_refl _)

lemma replaceScan_cons_neg (old new : List Char) (c : Char) (rest : List Char)
    (h : ¬(old ≠ [] ∧ old.isPrefixOf (c :: rest))) :
    replaceScan old new (c :: rest) = c :: replaceScan old new rest := by
  show replaceScanF old new (rest.length + 1) (c :: rest) = _
  simp only [replaceScanF, if_neg h]
  rfl

/-- A scan that finds no occurrence of the pattern leaves the string
unchanged (spec §8: "For all inputs where `search` does not occur in the
content, output equals input"). -/
lemma replaceScan_of_not_hasOccur (old new : List Char) :
    ∀ s, hasOccur old s = false → replaceScan old new s = s := by
  intro s
  induction s with
  | nil => intro _; rfl
  | cons c rest ih =>
      intro h
      simp only [hasOccur, Bool.or_eq_false_iff] at h
      rw [replaceScan_cons_neg old new c rest (by simp [h.1]), ih h.2]

lemma goReplaceAll_of_not_hasOccur (s old new : List Char) (hold : old ≠ [])
    (h : hasOccur old s = false) : goReplaceAll s old new = s := by
  rw [goReplaceAll, if_neg hold]
  exact replaceScan_of_not_hasOccur old new s h

lemma specReplace_of_none (s pat new : List Char) (hpat : pat ≠ [])
    (hm : firstMatchIdx pat s = none) : specReplace s pat new hpat = s := by
  rw [specReplace]
  split
  · rfl
  · next i hi => rw [hm] at hi; exact Option.noConfusion hi

lemma specReplace_of_some (s pat new : List Char) (hpat : pat ≠ []) (i : Nat)
    (hm : firstMatchIdx pat s = some i) :
    specReplace s pat new hpat =
      s.take i ++ new ++ specReplace (s.drop (i + pat.length)) pat new hpat := by
  rw [specReplace]
  split
  · next hn => rw [hm] at hn; exact Option.noConfusion hn
  · next j hj =>
      rw [hm] at hj
      cases hj
      rfl

/-- The left-to-right scan of Go's `strings.Replace` computes the spec's
find-first-occurrence-and-splice replacement. -/
lemma replaceScan_eq_specReplace (pat new : List Char) (hpat : pat ≠ []) :
    ∀ n s, s.length ≤ n → replaceScan pat new s = specReplace s pat new hpat := by
  intro n
  induction n with
  | zero =>
      intro s hs
      have : s = [] := List.length_eq_zero.mp (Nat.le_zero.mp hs)
      subst this
      rw [replaceScan_nil, specReplace_of_none _ _ _ _ (by simp [firstMatchIdx, hpat])]
  | succ n ih =>
      intro s hs
      match s with
      | [] =>
          rw [replaceScan_nil, specReplace_of_none _ _ _ _ (by simp [firstMatchIdx, hpat])]
      | c :: rest =>
        simp only [List.length_cons] at hs
        by_cases hp : pat.isPrefixOf (c :: rest)
        · have hm : firstMatchIdx pat (c :: rest) = some 0 := by
            simp [firstMatchIdx, hp]
          rw [replaceScan_cons_pos pat new c rest ⟨hpat, hp⟩,
            specReplace_of_some _ _ _ _ _ hm]
          have h1 : 0 < pat.length := List.length_pos.mpr hpat
          have hlen : ((c :: rest).drop pat.length).length ≤ n := by
            simp only [List.length_drop, List.length_cons]
            omega
          rw [ih _ hlen]
          simp
        · have hm : firstMatchIdx pat (c :: rest) = (firstMatchIdx pat rest).map (· + 1) := by
            simp [firstMatchIdx, hp]
          rw [replaceScan_cons_neg pat new c rest (by simp [hp]), ih rest (by omega)]
          cases hr : firstMatchIdx pat rest with
          | none =>
              rw [specReplace_of_none _ _ _ _ hr,
                specReplace_of_none _ _ _ _ (by rw [hm, hr]; rfl)]
          | some j =>
              rw [specReplace_of_some rest pat new hpat j hr,
                specReplace_of_some (c :: rest) pat new hpat (j + 1) (by rw [hm, hr]; rfl)]
              have harith : j + 1 + pat.length = (j + pat.length) + 1 := by omega
              rw [harith]
              simp [List.take_succ_cons, List.drop_succ_cons]

/-- For a non-empty pattern, Go's `strings.ReplaceAll` computes exactly the
spec's global left-to-right non-overlapping replacement. -/
lemma goReplaceAll_eq_specReplaceAll (s pat new : List Char) (hpat : pat ≠ []) :
    goReplaceAll s pat new = specReplaceAll s pat new := by
  rw [goReplaceAll, if_neg hpat, specReplaceAll, dif_neg hpat]
  exact replaceScan_eq_specReplace pat new hpat s.length s (le_refl _)

@[simp] lemma splitLines_nil : splitLines [] = [] := rfl

lemma splitLines_newline (cs : List Char) :
    splitLines ('\x0a' :: cs) = [] :: splitLines cs := by
  simp [splitLines]

lemma splitLines_ne_nil (c : Char) (cs : List Char) : splitLines (c :: cs) ≠ [] := by
  rw [splitLines]
  by_cases h : c = '\x0a'
  · simp [h]
  · rw [if_neg h]
    cases splitLines cs <;> simp

lemma splitLines_eq_nil_iff (l : List Char) : splitLines l = [] ↔ l = [] := by
  cases l with
  | nil => simp
  | cons c cs => simp [splitLines_ne_nil c cs]

@[simp] lemma joinNL_nil : joinNL [] = [] := rfl

@[simp] lemma joinNL_cons (seg : List Char) (t : List (List Char)) :
    joinNL (seg :: t) = seg ++ '\x0a' :: joinNL t := rfl

/-- Round trip of the line splitter and the line writer: splitting into
scanner tokens and writing each token back with one `\x0a` appended
reproduces the content, normalising a missing final newline into one. -/
lemma joinNL_splitLines (l : List Char) :
    joinNL (splitLines l) =
      if l = [] then []
      else if l.getLast? = some '\x0a' then l else l ++ ['\x0a'] := by
  induction l with
  | nil => simp [joinNL_nil]
  | cons c cs ih =>
      by_cases hc : c = '\x0a'
      · subst hc
        rw [splitLines_newline, joinNL_cons]
        cases cs with
        | nil => simp
        | cons d ds =>
            rw [ih]
            simp only [List.cons_ne_nil, if_neg, ite_false, List.getLast?_cons_cons]
            by_cases hl : (d :: ds).getLast? = some '\x0a'
            · simp [hl]
            · simp [hl]
      · rw [splitLines]
        rw [if_neg hc]
        cases hsp : splitLines cs with
        | nil =>
            have hcs : cs = [] := (splitLines_eq_nil_iff cs).mp hsp
            subst hcs
            have : some c ≠ some '\x0a' := by
              intro h
              exact hc (Option.some.inj h)
            simp [joinNL_cons, joinNL_nil, List.getLast?_singleton, this]
        | cons h t =>
            have hcs : cs ≠ [] := by
              intro he
              rw [he] at hsp
              exact List.noConfusion hsp
            rw [joinNL_cons]
            have step : c :: h ++ '\x0a' :: joinNL t = c :: joinNL (splitLines cs) := by
              rw [hsp, joinNL_cons]
              simp
            rw [step, ih]
            match cs, hcs with
            | d :: ds, _ =>
              simp only [List.cons_ne_nil, ite_false, List.getLast?_cons_cons, if_neg]
              by_cases hl : (d :: ds).getLast? = some '\x0a'
              · simp [hl]
              · simp [hl]

/-- A content without newline characters is scanned as a single token. -/
lemma splitLines_no_newline :
    ∀ l : List Char, l ≠ [] → (∀ c ∈ l, c ≠ '\x0a') → splitLines l = [l] := by
  intro l
  induction l with
  | nil => intro h _; exact absurd rfl h
  | cons c cs ih =>
      intro _ hall
      have hc : c ≠ '\x0a' := hall c (List.mem_cons_self c cs)
      rw [splitLines, if_neg hc]
      cases cs with
      | nil => rfl
      | cons d ds =>
          rw [ih (by simp) (fun x hx => hall x (List.mem_cons_of_mem c hx))]

/-- When no token overflows the scanner buffer and the context never fires,
the streaming loop completes and the temp file holds every transformed line,
each terminated by one newline. -/
lemma largeLoop_ok (search replace : List Char) :
    ∀ (segs : List (List Char)) (i : Nat) (acc : List Char),
      (∀ seg ∈ segs, seg.length < maxScanTokenSize) →
      largeLoop none search replace i acc segs =
        (LargeResult.ok,
          acc ++ joinNL (segs.map fun seg => goReplaceAll (dropCR seg) search replace)) := by
  intro segs
  induction segs with
  | nil => intro i acc _; simp [largeLoop]
  | cons seg rest ih =>
      intro i acc hlen
      have h1 : ¬ maxScanTokenSize ≤ seg.length := by
        have := hlen seg (List.mem_cons_self seg rest)
        omega
      rw [largeLoop, if_neg h1]
      have h2 : ctxDone none i = false := rfl
      rw [h2]
      simp only [Bool.false_eq_true, if_false]
      rw [ih (i + 1) _ (fun s hs => hlen s (List.mem_cons_of_mem seg hs))]
      simp [joinNL_cons, List.append_assoc]

/-- If the cancellation signal fires at iteration `k` and the scanner
produces tokens up to and including iteration `k` without overflowing, the
loop stops with the cancellation error. -/
lemma largeLoop_cancel (search replace : List Char) (k : Nat) :
    ∀ (segs : List (List Char)) (i : Nat) (acc : List Char),
      i ≤ k → k - i < segs.length →
      (∀ seg ∈ segs.take (k - i + 1), seg.length < maxScanTokenSize) →
      (largeLoop (some k) search replace i acc segs).1 = LargeResult.cancelled := by
  intro segs
  induction segs with
  | nil => intro i acc _ h2 _; simp at h2
  | cons seg rest ih =>
      intro i acc h1 h2 h3
      have hseg : seg.length < maxScanTokenSize := by
        apply h3
        rw [List.take_succ_cons]
        exact List.mem_cons_self seg _
      rw [largeLoop, if_neg (by omega)]
      by_cases hk : k ≤ i
      · have : ctxDone (some k) i = true := by simp [ctxDone, hk]
        rw [this]
        simp
      · have : ctxDone (some k) i = false := by simp [ctxDone]; omega
        rw [this]
        simp only [Bool.false_eq_true, if_false]
        apply ih (i + 1)
        · omega
        · simp only [List.length_cons] at h2; omega
        · intro s hs
          apply h3
          rw [List.take_succ_cons]
          apply List.mem_cons_of_mem
          have harith : k - i = (k - (i + 1)) + 1 := by omega
          rw [harith]
          exact hs

/-- If some token overflows the scanner buffer and the context never fires,
the loop stops with the scan error. -/
lemma largeLoop_scanErr (search replace : List Char) :
    ∀ (segs : List (List Char)) (i : Nat) (acc : List Char),
      (∃ seg ∈ segs, maxScanTokenSize ≤ seg.length) →
      (largeLoop none search replace i acc segs).1 = LargeResult.scanErr := by
  intro segs
  induction segs with
  | nil => intro i acc h; simp at h
  | cons seg rest ih =>
      intro i acc h
      by_cases h1 : maxScanTokenSize ≤ seg.length
      · rw [largeLoop, if_pos h1]
      · rw [largeLoop, if_neg h1]
        have h2 : ctxDone none i = false := rfl
        rw [h2]
        simp only [Bool.false_eq_true, if_false]
        apply ih
        rcases h with ⟨s, hs, hlen⟩
        rcases List.mem_cons.mp hs with he | hm
        · exact absurd (he ▸ hlen) h1
        · exact ⟨s, hm, hlen⟩

/-- src/main.go's `walk` re-enters itself on the root directory before making
any progress, so on a directory root the traversal never completes and never
emits a close event, whatever the fuel. -/
lemma filepathWalkMain_dir_stuck :
    ∀ (fuel : Nat) (p : FsPath) (nm : String) (ch : List FsTree),
      (filepathWalkMain fuel [(p, FsTree.dir nm ch)]).2 = false ∧
      closeCount (filepathWalkMain fuel [(p, FsTree.dir nm ch)]).1 = 0 := by
  intro fuel
  induction fuel with
  | zero =>
      intro p nm ch
      constructor
      · simp [filepathWalkMain]
      · simp [filepathWalkMain, closeCount]
  | succ fuel ih =>
      intro p nm ch
      rcases ih p nm ch with ⟨hf, hc⟩
      have hinner2 : (walkMain fuel p (FsTree.dir nm ch)).2 = false := by
        rw [walkMain]
        simp [hf]
      have hinner1 : closeCount (walkMain fuel p (FsTree.dir nm ch)).1 = 0 := by
        rw [walkMain]
        simp only [hf, Bool.false_eq_true, if_false]
        exact hc
      constructor
      · simp only [filepathWalkMain]
        simp [hinner2]
      · simp only [filepathWalkMain]
        simp [hinner2, hinner1]

/-! ## Claim theorems -/

/-- Claim C1 (amended): if the cancellation signal has fired before or during
line processing — at the check preceding some iteration `k` that the scanner
actually reaches, which includes a deadline already expired at the time of
the call (`k = 0`) provided the scan yields at least one token — then
`replaceInLargeFile` returns the cancellation error, the original file's
bytes are unchanged, and no temporary file remains. -/
theorem cancelled_largeFile_unchanged (content search replace : List Char) (k : Nat)
    (h1 : k < (splitLines content).length)
    (h2 : ∀ seg ∈ (splitLines content).take (k + 1), seg.length < maxScanTokenSize) :
    replaceInLargeFile (some k) content search replace =
      ⟨LargeResult.cancelled, content, false⟩ := by
  have hl : (largeLoop (some k) search replace 0 [] (splitLines content)).1 =
      LargeResult.cancelled := by
    apply largeLoop_cancel search replace k (splitLines content) 0 []
    · exact Nat.zero_le k
    · simpa using h1
    · simpa using h2
  rw [replaceInLargeFile]
  simp [hl]

/-- Witness for C1: a deadline expired at the time of the call on `"hello
world"` returns the cancellation error and leaves the content unchanged. -/
theorem cancelled_largeFile_unchanged_witness :
    (0 < (splitLines "hello world".toList).length ∧
     ∀ seg ∈ (splitLines "hello world".toList).take 1, seg.length < maxScanTokenSize) ∧
    replaceInLargeFile (some 0) "hello world".toList "world".toList "gopher".toList =
      ⟨LargeResult.cancelled, "hello world".toList, false⟩ :=
  ⟨⟨by decide, by decide⟩,
   cancelled_largeFile_unchanged "hello world".toList "world".toList "gopher".toList 0
     (by decide) (by decide)⟩

/-- Counterexample to C1 as stated: on an empty file, `scanner.Scan()` is
false immediately, the in-loop cancellation check is never executed, and the
call returns `nil` and renames the (empty) temp file over the original — not
the cancellation error — even though the deadline was already expired at the
time of the call. -/
theorem cancelled_largeFile_counterexample :
    (replaceInLargeFile (some 0) [] ['a'] ['b']).result ≠ LargeResult.cancelled ∧
    replaceInLargeFile (some 0) [] ['a'] ['b'] = ⟨LargeResult.ok, [], false⟩ := by
  decide

/-- Claim C2 (amended): for every non-empty `search`, a successful small-file
rewrite leaves the file containing exactly the spec's global literal
substring replacement (every non-overlapping occurrence of `search`, scanned
left to right, replaced by `replace`); the concrete scenario `"hello world"`
→ `"hello gopher"` (and `"hello gopher\n"` on the large path) is checked in
the witness. -/
theorem replaceInFile_matches_spec (content search replace : List Char)
    (h : search ≠ []) :
    replaceInFile content search replace = specReplaceAll content search replace :=
  goReplaceAll_eq_specReplaceAll content search replace h

/-- Witness for C2: the spec's concrete scenario 1. -/
theorem replaceInFile_matches_spec_witness :
    ("world".toList ≠ [] ∧
     replaceInFile "hello world".toList "world".toList "gopher".toList =
       specReplaceAll "hello world".toList "world".toList "gopher".toList) ∧
    replaceInFile "hello world".toList "world".toList "gopher".toList =
      "hello gopher".toList ∧
    replaceInLargeFile none "hello world".toList "world".toList "gopher".toList =
      ⟨LargeResult.ok, "hello gopher\n".toList, false⟩ :=
  ⟨⟨by decide, replaceInFile_matches_spec "hello world".toList "world".toList "gopher".toList
      (by decide)⟩,
   by decide, by decide⟩

/-- Counterexample to C2 as stated (universal over every search/replace
pair): with empty `search`, Go's `strings.ReplaceAll` inserts `replace` at
every boundary while the spec's replacement is a deterministic no-op, so the
rewritten content differs from the spec's global literal substring
replacement. -/
theorem replaceInFile_spec_counterexample :
    replaceInFile ['a'] [] ['X'] ≠ specReplaceAll ['a'] [] ['X'] ∧
    replaceInFile ['a'] [] ['X'] = ['X', 'a', 'X'] := by
  decide

/-- Claim C3 (amended): part_000's `walkDir` sends each visited regular file
to exactly one queue — the large queue iff its size exceeds the 2 GiB
threshold, the small queue otherwise, never both; src/main.go's `walk`
instead sends every regular file to the small queue and sends files over the
threshold to the large queue as well, so an oversized file is sent to both
queues there. -/
theorem walker_routing (p : FsPath) (size : Int) :
    (visitFileWalkDir p size = [QueueMsg.toLarge p] ∨
     visitFileWalkDir p size = [QueueMsg.toSmall p]) ∧
    (maxFileSize < size →
      visitFileWalkDir p size = [QueueMsg.toLarge p] ∧
      visitFileMain p size = [QueueMsg.toLarge p, QueueMsg.toSmall p]) ∧
    (¬ maxFileSize < size →
      visitFileWalkDir p size = [QueueMsg.toSmall p] ∧
      visitFileMain p size = [QueueMsg.toSmall p]) := by
  by_cases h : maxFileSize < size <;> simp [visitFileWalkDir, visitFileMain, h]

/-- Witness for C3: a file one byte over the threshold. -/
theorem walker_routing_witness :
    visitFileWalkDir ["f"] 2147483649 = [QueueMsg.toLarge ["f"]] ∧
    visitFileMain ["f"] 2147483649 = [QueueMsg.toLarge ["f"], QueueMsg.toSmall ["f"]] :=
  (walker_routing ["f"] 2147483649).2.1 (by decide)

/-- Counterexample to C3 as stated: in src/main.go's `walk`, a regular file
one byte over the 2 GiB threshold is sent to the large queue and then,
unconditionally, to the small queue as well — it is sent to both queues, not
to exactly one. -/
theorem walker_double_send_counterexample :
    QueueMsg.toLarge ["f"] ∈ visitFileMain ["f"] 2147483649 ∧
    QueueMsg.toSmall ["f"] ∈ visitFileMain ["f"] 2147483649 := by
  decide

/-- Claim C4 (code bug): src/main.go's `walk` re-enters itself on the root
directory from the `filepath.Walk` callback, so on any directory root the
traversal never returns and in particular never closes either queue — the
close statements after `filepath.Walk` are unreachable, contradicting the
claim that both queues are closed exactly once after traversal.  (The
part_000 variant fixes this by splitting `walk` from `walkDir` and skipping
the root.)  Whatever the fuel, the run is unfinished and its trace contains
zero close events. -/
theorem walk_never_closes_queues (fuel : Nat) (p : FsPath) (nm : String)
    (ch : List FsTree) :
    closeCount (walkMain fuel p (FsTree.dir nm ch)).1 = 0 := by
  rcases filepathWalkMain_dir_stuck fuel p nm ch with ⟨hf, hc⟩
  rw [walkMain]
  simp only [hf, Bool.false_eq_true, if_false]
  exact hc

/-- Claim C5 (code bug): src/main.go's `walk` does not skip the root entry;
on a directory root the callback immediately re-enters `walk` on the same
path, so the recursion never bottoms out: for every amount of fuel the
fuelled model reports the traversal unfinished. -/
theorem walk_diverges_on_directory (fuel : Nat) (p : FsPath) (nm : String)
    (ch : List FsTree) :
    (walkMain fuel p (FsTree.dir nm ch)).2 = false := by
  rcases filepathWalkMain_dir_stuck fuel p nm ch with ⟨hf, _⟩
  rw [walkMain]
  simp [hf]

/-- Claim C6 (amended): the large-file rewriter treats a line as the bytes up
to each `\x0a` delimiter, the delimiter stripped on read and one `\x0a`
re-appended on write; in addition a carriage return immediately before the
delimiter (or at the end of an unterminated final line) is stripped and not
re-appended.  For content whose tokens carry no trailing carriage return and
fit the scanner buffer: every line is rewritten as its per-line replacement
followed by one newline, and when `search` does not occur in any line the
output is byte-for-byte the input, normalised to end in exactly one newline
per line (an input lacking a trailing newline gains one; empty input gives
empty output). -/
theorem largeFile_line_structure (content search replace : List Char)
    (hcr : ∀ seg ∈ splitLines content, dropCR seg = seg)
    (hlen : ∀ seg ∈ splitLines content, seg.length < maxScanTokenSize)
    (hse : search ≠ []) :
    (replaceInLargeFile none content search replace =
      ⟨LargeResult.ok,
        joinNL ((splitLines content).map fun seg => goReplaceAll seg search replace),
        false⟩) ∧
    ((∀ seg ∈ splitLines content, hasOccur search seg = false) →
      replaceInLargeFile none content search replace =
        ⟨LargeResult.ok,
          (if content = [] then []
           else if content.getLast? = some '\x0a' then content
           else content ++ ['\x0a']),
          false⟩) := by
  have hmap : ((splitLines content).map fun seg => goReplaceAll (dropCR seg) search replace) =
      ((splitLines content).map fun seg => goReplaceAll seg search replace) :=
    List.map_congr_left fun seg hm => by rw [hcr seg hm]
  have hfirst : replaceInLargeFile none content search replace =
      ⟨LargeResult.ok,
        joinNL ((splitLines content).map fun seg => goReplaceAll seg search replace),
        false⟩ := by
    rw [replaceInLargeFile, largeLoop_ok search replace (splitLines content) 0 [] hlen]
    simp [hmap]
  refine ⟨hfirst, fun hno => ?_⟩
  have hid : ((splitLines content).map fun seg => goReplaceAll seg search replace) =
      splitLines content := by
    have hcg : ∀ seg ∈ splitLines content, goReplaceAll seg search replace = seg :=
      fun seg hm => goReplaceAll_of_not_hasOccur seg search replace hse (hno seg hm)
    rw [List.map_congr_left hcg, List.map_id']
  rw [hfirst, hid, joinNL_splitLines]

/-- Witness for C6: a two-line file without trailing newline and a
non-occurring search string round-trips with the final newline added. -/
theorem largeFile_line_structure_witness :
    ((∀ seg ∈ splitLines "hello\nworld".toList, dropCR seg = seg) ∧
     (∀ seg ∈ splitLines "hello\nworld".toList, seg.length < maxScanTokenSize) ∧
     "xq".toList ≠ [] ∧
     (∀ seg ∈ splitLines "hello\nworld".toList, hasOccur "xq".toList seg = false)) ∧
    replaceInLargeFile none "hello\nworld".toList "xq".toList "y".toList =
      ⟨LargeResult.ok, "hello\nworld\n".toList, false⟩ :=
  ⟨⟨by decide, by decide, by decide, by decide⟩,
   ((largeFile_line_structure "hello\nworld".toList "xq".toList "y".toList
       (by decide) (by decide) (by decide)).2 (by decide)).trans (by decide)⟩

/-- Counterexample to C6 as stated: `bufio.ScanLines` also strips a carriage
return before the delimiter, so for the content `"a\x0d\nb"` (whose only
non-delimiter bytes are `a`, `\x0d`, `b`) the byte `\x0d` of the first line
is not preserved: the code yields `"a\nb\n"`, not the claimed
`"a\x0d\nb\n"`, although the search string occurs nowhere. -/
theorem largeFile_crlf_counterexample :
    (replaceInLargeFile none ['a', '\x0d', '\x0a', 'b'] ['q'] ['z']).fileContent ≠
      ['a', '\x0d', '\x0a', 'b', '\x0a'] ∧
    (replaceInLargeFile none ['a', '\x0d', '\x0a', 'b'] ['q'] ['z']).fileContent =
      ['a', '\x0a', 'b', '\x0a'] := by
  decide

/-- Claim C7 (amended): with empty `search`, both rewriters apply Go's
`strings.ReplaceAll`, which deterministically inserts `replace` before every
character of the content and after the last one (`k+1` insertions for `k`
characters) — not a no-op: the output equals the input exactly when `replace`
is itself empty. -/
theorem empty_search_insertion (s new : List Char) :
    replaceInFile s [] new = new ++ s.flatMap (fun c => c :: new) ∧
    (replaceInFile s [] new = s ↔ new = []) := by
  have hlen : ∀ t : List Char,
      (t.flatMap fun c => c :: new).length = t.length * (new.length + 1) := by
    intro t
    induction t with
    | nil => simp
    | cons c cs ih =>
        simp only [List.flatMap_cons, List.length_append, List.length_cons, ih]
        rw [Nat.succ_mul]
        omega
  have hsingle : ∀ t : List Char, (t.flatMap fun c => c :: ([] : List Char)) = t := by
    intro t
    induction t with
    | nil => rfl
    | cons c cs ih => simp only [List.flatMap_cons, List.singleton_append, ih]
  refine ⟨rfl, ?_, ?_⟩
  · intro h
    have h1 := congrArg List.length h
    simp [replaceInFile, goReplaceAll, hlen] at h1
    have h2 : s.length * (new.length + 1) = s.length * new.length + s.length := by ring
    have h3 : new.length = 0 := by omega
    exact List.length_eq_zero.mp h3
  · intro h
    subst h
    show goReplaceAll s [] [] = s
    rw [goReplaceAll, if_pos rfl, List.nil_append]
    exact hsingle s

/-- Counterexample to C7 as stated: with empty search and replace `"X"`, the
content `"ab"` becomes `"XaXbX"` in the small rewriter (and `"XaXbX\n"` in
the large one) — not the claimed no-op. -/
theorem empty_search_counterexample :
    replaceInFile ['a', 'b'] [] ['X'] ≠ ['a', 'b'] ∧
    (replaceInLargeFile none ['a', 'b'] [] ['X']).fileContent ≠ ['a', 'b'] ∧
    replaceInFile ['a', 'b'] [] ['X'] = ['X', 'a', 'X', 'b', 'X'] := by
  decide

/-- Claim C8 (amended): applying the replacement twice equals applying it
once whenever `search` is non-empty and does not occur in the once-applied
output (the claim's hypothesis — that `replace` contains no occurrence of
`search` — is not sufficient, because a replacement can create an occurrence
spanning the boundary between the substituted text and the following
characters). -/
theorem replacement_idempotent (content search replace : List Char)
    (h1 : search ≠ [])
    (h2 : hasOccur search (replaceInFile content search replace) = false) :
    replaceInFile (replaceInFile content search replace) search replace =
      replaceInFile content search replace :=
  goReplaceAll_of_not_hasOccur (replaceInFile content search replace) search replace h1 h2

/-- Witness for C8: the spec's concrete scenario 2 is idempotent. -/
theorem replacement_idempotent_witness :
    ("foo".toList ≠ [] ∧
     hasOccur "foo".toList
       (replaceInFile "foo bar foo".toList "foo".toList "baz".toList) = false) ∧
    replaceInFile (replaceInFile "foo bar foo".toList "foo".toList "baz".toList)
        "foo".toList "baz".toList =
      replaceInFile "foo bar foo".toList "foo".toList "baz".toList :=
  ⟨⟨by decide, by decide⟩,
   replacement_idempotent "foo bar foo".toList "foo".toList "baz".toList
     (by decide) (by decide)⟩

/-- Counterexample to C8 as stated: `search = "ab"`, `replace = "ca"`
(`replace` contains no occurrence of `search`), content `"abb"`: one
application gives `"cab"`, a second application gives `"cca"` — applying
twice differs from applying once. -/
theorem replacement_idempotence_counterexample :
    hasOccur ['a', 'b'] ['c', 'a'] = false ∧
    replaceInFile (replaceInFile ['a', 'b', 'b'] ['a', 'b'] ['c', 'a'])
        ['a', 'b'] ['c', 'a'] ≠
      replaceInFile ['a', 'b', 'b'] ['a', 'b'] ['c', 'a'] := by
  decide

/-- Claim C9 (confirmed): if any line of the input exceeds the scanner's
maximum token size (the `bufio.Scanner` default of 64 KiB), `Scan` fails with
`ErrTooLong` before reaching the rename, so the call returns the scanning
error, the temporary file is discarded, and the original file is
byte-for-byte unchanged. -/
theorem oversized_line_scan_error (content search replace : List Char)
    (h : ∃ seg ∈ splitLines content, maxScanTokenSize < seg.length) :
    replaceInLargeFile none content search replace =
      ⟨LargeResult.scanErr, content, false⟩ := by
  have hl : (largeLoop none search replace 0 [] (splitLines content)).1 =
      LargeResult.scanErr := by
    apply largeLoop_scanErr search replace (splitLines content) 0 []
    rcases h with ⟨seg, hm, hlen⟩
    exact ⟨seg, hm, by omega⟩
  rw [replaceInLargeFile]
  simp [hl]

/-- A single line of 64 KiB + 1 characters. -/
def longLine : List Char := List.replicate 65537 'a'

/-- Witness for C9: a file consisting of one 65537-character line fails with
the scanning error and is left unchanged. -/
theorem oversized_line_scan_error_witness :
    (∃ seg ∈ splitLines longLine, maxScanTokenSize < seg.length) ∧
    replaceInLargeFile none longLine ['q'] ['z'] =
      ⟨LargeResult.scanErr, longLine, false⟩ := by
  have hs : splitLines longLine = [longLine] := by
    apply splitLines_no_newline
    · intro h
      rw [longLine] at h
      have h2 := congrArg List.length h
      rw [List.length_replicate] at h2
      exact absurd h2 (by decide)
    · intro c hc
      rw [longLine] at hc
      rw [List.eq_of_mem_replicate hc]
      decide
  have hex : ∃ seg ∈ splitLines longLine, maxScanTokenSize < seg.length := by
    refine ⟨longLine, by rw [hs]; exact List.mem_singleton_self _, ?_⟩
    rw [longLine, maxScanTokenSize, List.length_replicate]
    decide
  exact ⟨hex, oversized_line_scan_error longLine ['q'] ['z'] hex⟩

/-- Claim C10 (confirmed): for a fixed triple of content, search, and replace
(and a fixed cancellation schedule for the streamed path), both rewriters'
content transformations are pure functions of their inputs in this embedding:
byte-identical input contents produce byte-identical outcomes. -/
theorem rewriters_deterministic (c1 c2 search replace : List Char)
    (cancelAt : Option Nat) (h : c1 = c2) :
    replaceInFile c1 search replace = replaceInFile c2 search replace ∧
    replaceInLargeFile cancelAt c1 search replace =
      replaceInLargeFile cancelAt c2 search replace := by
  subst h
  exact ⟨rfl, rfl⟩

/-- Witness for C10: two runs on the same concrete content coincide. -/
theorem rewriters_deterministic_witness :
    replaceInFile "hello world".toList "world".toList "gopher".toList =
      replaceInFile "hello world".toList "world".toList "gopher".toList ∧
    replaceInLargeFile none "hello world".toList "world".toList "gopher".toList =
      replaceInLargeFile none "hello world".toList "world".toList "gopher".toList :=
  rewriters_deterministic "hello world".toList "hello world".toList "world".toList
    "gopher".toList none rfl

end Replacer

